import Mathlib

/-!
Verification of the layer-composition pipeline of `mkpdfs.py`.

The program converts a layered SVG document into a sequence of PDF pages:
it walks the ordered list of layers, classifies each one by the first
character of its label (`.` hidden, `_` base, `+` additive, otherwise
normal), maintains the running sets `base_layers` / `visible_layers`, and
for every non-deferred step renders one page with the currently visible
layers and the current slide number substituted into text templates.

This file gives a shallow embedding of that algorithm.  Layers are records
carrying an `id` (standing for the identity of the underlying XML element;
the elements of a parsed tree are pairwise distinct objects) and their
`label` string.  The main loop (lines 86-126 of the source) is modelled as
a fold `composeUpTo` over the hidden-filtered layer list producing the
list of emitted render requests, and a driver `runDriver` that replays the
per-request style/text mutations (lines 107-126) on a document state.
-/

set_option maxHeartbeats 1000000

/-- A layer group of the document: its element identity and its
`inkscape:label` attribute value. -/
structure Layer where
  id : Nat
  label : String
  deriving DecidableEq

instance : Inhabited Layer := ⟨⟨0, ""⟩⟩

def defaultLayer : Layer := ⟨0, ""⟩

/-- `label[0]`: the classifying first character of a layer's label
(lines 67, 75, 88, 92, 101-102 of the source all branch on it). -/
def sigil (l : Layer) : Char := l.label.front

/-- Line 67: a layer is kept for processing when `label[0] != '.'`. -/
def notHidden (l : Layer) : Bool := sigil l ≠ '.'

/-- Base layers: `label[0] == '_'` (line 88). -/
def isBaseL (l : Layer) : Bool := sigil l = '_'

/-- Additive layers: `label[0] == '+'` (line 92). -/
def isAddL (l : Layer) : Bool := sigil l = '+'

/-- The `else` branch of the main loop (line 95): neither base nor
additive.  Hidden layers were already removed from the working list. -/
def isNormL (l : Layer) : Bool := sigil l ≠ '_' && sigil l ≠ '+'

/-- A layer that is Normal in the sense of the specification: its sigil is
none of `.`, `_`, `+`. -/
def isSpecNormal (l : Layer) : Bool :=
  sigil l ≠ '.' && sigil l ≠ '_' && sigil l ≠ '+'

/-- Line 67: `layers[:] = [l for l in layers if l.attrib[label][0] != '.']`. -/
def filterHidden (layers : List Layer) : List Layer := layers.filter notHidden

/-- One render request, as described by the specification: the slide
number substituted into text templates, the 0-based index used to name
the exported page file (`page_count` at emission time), and the layers
made visible for this page (`visible_layers` at emission time, in order). -/
structure RenderRequest where
  slide_number : Nat
  output_index : Nat
  visible_layer_set : List Layer
  deriving DecidableEq

def defaultRequest : RenderRequest := ⟨0, 0, []⟩

/-- The running state of the main pass (lines 80-84), plus the list of
requests emitted so far and a flag recording whether the flattening
lookahead ever read past the end of the layer list (which in Python
would raise `IndexError` at line 101). -/
structure ComposerState where
  slide_num : Nat
  page_count : Nat
  base_layers : List Layer
  visible_layers : List Layer
  requests : List RenderRequest
  oob : Bool
  deriving DecidableEq

def initState : ComposerState := ⟨0, 0, [], [], [], false⟩

/-- Lines 71-76 of the source compute `last_visible_layer` by folding over
the filtered list, overwriting the accumulator at every layer whose label
does not start with `_`.  Python compares layers by object identity
(line 100, `l != last_visible_layer`), so we track the *index* of that
layer; the elements of the parsed tree are pairwise distinct objects,
hence index equality is exactly object identity. -/
def last_visible_index (layers : List Layer) : Option Nat :=
  (layers.foldl
    (fun acc l => (if sigil l ≠ '_' then some acc.2 else acc.1, acc.2 + 1))
    ((none : Option Nat), 0)).1

/-- Recursive form of `last_visible_index`, convenient for proofs:
the last index `≥ i` (counting from `i` at the head) whose layer has a
non-`_` sigil. -/
def lastVisibleIdxFrom : List Layer → Nat → Option Nat
  | [], _ => none
  | l :: t, i =>
    match lastVisibleIdxFrom t (i + 1) with
    | some j => some j
    | none => if sigil l ≠ '_' then some i else none

def lastVisibleIdx (layers : List Layer) : Option Nat :=
  lastVisibleIdxFrom layers 0

/-- Lines 107-119 in the emitting case: make `visible_layers` visible,
substitute the strings, write the SVG and export page number
`page_count`, then increment `page_count`.  The data recorded in the
request is exactly what those lines consume. -/
def emit (st : ComposerState) : ComposerState :=
  { st with
    requests := st.requests ++
      [{ slide_number := st.slide_num, output_index := st.page_count,
         visible_layer_set := st.visible_layers }],
    page_count := st.page_count + 1 }

/-- One iteration of the main loop (lines 86-126) at index `i` of the
filtered list: classify by sigil, update `base_layers` / `visible_layers`
/ `slide_num`, then either defer (flattening lookahead, lines 100-105) or
emit.  The lookahead reads `layers[i+1]`; if that is out of range the
`oob` flag is set (Python would raise `IndexError`). -/
def stepLayer (coalesce : Bool) (layers : List Layer) (i : Nat)
    (st : ComposerState) : ComposerState :=
  let l := layers.getD i defaultLayer
  if sigil l = '_' then
    { st with base_layers := st.base_layers ++ [l] }
  else
    let st1 : ComposerState :=
      if sigil l = '+' then
        { st with visible_layers := st.visible_layers ++ [l] }
      else
        { st with visible_layers := st.base_layers ++ [l],
                  slide_num := st.slide_num + 1 }
    if coalesce = true ∧ some i ≠ lastVisibleIdx layers then
      if i + 1 < layers.length then
        let next := layers.getD (i + 1) defaultLayer
        if sigil next = '+' ∨ sigil next = '.' then st1
        else emit st1
      else { st1 with oob := true }
    else emit st1

/-- State of the main pass after processing the first `p` layers of the
(already hidden-filtered) list. -/
def composeUpTo (coalesce : Bool) (layers : List Layer) : Nat → ComposerState
  | 0 => initState
  | p + 1 =>
    if p < layers.length then
      stepLayer coalesce layers p (composeUpTo coalesce layers p)
    else composeUpTo coalesce layers p

/-- The whole composer run on a raw layer list: filter the hidden layers
out (line 67), then run the main loop over the remaining list. -/
def compose (coalesce : Bool) (raw : List Layer) : ComposerState :=
  composeUpTo coalesce (filterHidden raw) (filterHidden raw).length

/-! ### String substitution (lines 51-59 and 110-112)

Python strings are sequences of code points; slicing and `str.replace`
work on code points, so strings are embedded as `List Char`. -/

/-- Does `pat` match at the front of the second list? -/
def matchesAt : List Char → List Char → Bool
  | [], _ => true
  | _ :: _, [] => false
  | p :: ps, c :: cs => p == c && matchesAt ps cs

/-- `pat in s` (line 57 uses `s.find(pat) != -1`). -/
def hasOccurrence (pat : List Char) : List Char → Bool
  | [] => pat.isEmpty
  | c :: rest => matchesAt pat (c :: rest) || hasOccurrence pat rest

/-- Replace every non-overlapping occurrence of `pat` (scanning left to
right) by `rep`, the semantics of Python's `str.replace` for a non-empty
pattern.  The fuel argument is bounded by the length of the subject
string, which suffices because every step consumes at least one
character. -/
def replaceAux (pat rep : List Char) : Nat → List Char → List Char
  | _, [] => []
  | 0, s => s
  | fuel + 1, c :: rest =>
    if matchesAt pat (c :: rest) && !pat.isEmpty then
      rep ++ replaceAux pat rep fuel (List.drop (pat.length - 1) rest)
    else
      c :: replaceAux pat rep fuel rest

/-- `s.replace(pat, rep)` for a non-empty pattern. -/
def replaceList (s pat rep : List Char) : List Char :=
  replaceAux pat rep s.length s

/-- The substitution marker `${slide}` (line 57). -/
def slideMarker : List Char := "${slide}".toList

/-- Line 112: `subst_strings[s].replace('${slide}', str(slide_num))`. -/
def substSlide (template : List Char) (n : Nat) : List Char :=
  replaceList template slideMarker (Nat.repr n).toList

/-- Lines 56-59: the original strings of the text elements containing the
marker, captured once before the main pass. -/
def subst_strings (texts : List (List Char)) : List (List Char) :=
  texts.filter (hasOccurrence slideMarker)

/-! ### The render driver (lines 61-67, 72-73 and 107-126)

The document state visible to the driver: one visibility flag per element
id (the `style` attribute being `display:inline` or `display:none`), and
the current text of each substitution target. -/

structure DocState where
  visible : Nat → Bool
  texts : List (List Char)

/-- Assign `style` on each listed layer (`for vl in visible_layers:` at
lines 107-108 / 125-126, `for l in layers:` at lines 63-64 / 72-73). -/
def setStyle (f : Nat → Bool) (ls : List Layer) (b : Bool) : Nat → Bool :=
  ls.foldl (fun g l => fun x => if x = l.id then b else g x) f

/-- Lines 61-67 and 72-73: hide every layer of the document (including
hidden ones), then hide the filtered working list again. -/
def hide_all (raw : List Layer) (d : DocState) : DocState :=
  { d with visible := setStyle (setStyle d.visible raw false) (filterHidden raw) false }

/-- Lines 107-126 for one emitted request: show the request's layers,
substitute each captured template (always starting from the stored
original), write and render the page, then hide the request's layers
again. -/
def processRequest (templates : List (List Char)) (d : DocState)
    (r : RenderRequest) : DocState :=
  let shown : DocState :=
    { d with visible := setStyle d.visible r.visible_layer_set true }
  let substituted : DocState :=
    { shown with texts := templates.map (fun t => substSlide t r.slide_number) }
  { substituted with
    visible := setStyle substituted.visible r.visible_layer_set false }

/-- Replay the whole render loop over the emitted requests in order. -/
def runDriver (templates : List (List Char)) (d : DocState)
    (rs : List RenderRequest) : DocState :=
  rs.foldl (processRequest templates) d

/-- The main pass as the driver sees it: hide everything, then process
every request the composer emits. -/
def mainPass (coalesce : Bool) (raw : List Layer)
    (templates : List (List Char)) (d : DocState) : DocState :=
  runDriver templates (hide_all raw d) ((compose coalesce raw).requests)

/-! ### Document loading (lines 47-49 and the label lookups)

Line 67 reads `l.attrib['{...}label']` for every layer group before the
main pass begins; a group without the attribute raises a lookup error
there, which the specification's error taxonomy names
`MalformedDocument` (section 7).  The raw parsed form of a layer carries
an optional label. -/

structure RawLayer where
  id : Nat
  label? : Option String
  deriving DecidableEq

inductive DocError where
  | MalformedDocument
  deriving DecidableEq

/-- Read the labels of all layer groups in document order; the first
missing label aborts the run. -/
def loadLayers : List RawLayer → Except DocError (List Layer)
  | [] => .ok []
  | l :: t =>
    match l.label? with
    | none => .error .MalformedDocument
    | some s =>
      match loadLayers t with
      | .error e => .error e
      | .ok ls => .ok (⟨l.id, s⟩ :: ls)

/-- The pipeline up to the composer: load the labels (failing on a layer
group without one, before anything is rendered), then run the main pass;
the emitted requests are what the renderer would be invoked on. -/
def runPipeline (coalesce : Bool) (raw : List RawLayer) :
    Except DocError (List RenderRequest) :=
  (loadLayers raw).map (fun ls => (compose coalesce ls).requests)

/-- Line 129: `out_path = srcfile[:-4] + '.pdf'` — drop the last four
characters of the source path and append `.pdf`.  Python's `s[:-4]` is
`take (length - 4)` on the sequence of code points. -/
def out_path (srcfile : List Char) : List Char :=
  srcfile.take (srcfile.length - 4) ++ ['.', 'p', 'd', 'f']


/-- Characterisation of `visible_layers` after the first `p` layers of the
filtered list have been processed: either no normal layer has been seen
and the list is exactly the additive layers so far, or `m` is the index of
the most recent normal layer and the list is the base layers declared
before it, followed by it, followed by the additive layers seen since. -/
def VisInv (F : List Layer) (p : Nat) (vis : List Layer) : Prop :=
  ((∀ l ∈ F.take p, isNormL l = false) ∧ vis = (F.take p).filter isAddL)
  ∨ (∃ m, m < p ∧ isNormL (F.getD m defaultLayer) = true
      ∧ (∀ q, m < q → q < p → isNormL (F.getD q defaultLayer) = false)
      ∧ vis = (F.take m).filter isBaseL
          ++ F.getD m defaultLayer :: ((F.take p).drop (m + 1)).filter isAddL)

/-! ### List index helpers -/

theorem take_succ_getD {α : Type} (d : α) :
    ∀ (l : List α) (n : Nat), n < l.length →
      l.take (n + 1) = l.take n ++ [l.getD n d] := by
  intro l
  induction l with
  | nil => intro n hn; simp at hn
  | cons a t ih =>
    intro n hn
    cases n with
    | zero => simp [List.getD]
    | succ m =>
      simp only [List.take, List.getD_cons_succ, List.cons_append]
      rw [ih m (by simpa using hn)]

theorem getD_append_len {α : Type} (d : α) :
    ∀ (xs ys : List α) (i : Nat), (xs ++ ys).getD (xs.length + i) d = ys.getD i d := by
  intro xs
  induction xs with
  | nil => intro ys i; simp
  | cons a t ih =>
    intro ys i
    simpa [Nat.succ_add] using ih ys i

theorem getD_append_lt {α : Type} (d : α) :
    ∀ (xs ys : List α) (i : Nat), i < xs.length →
      (xs ++ ys).getD i d = xs.getD i d := by
  intro xs
  induction xs with
  | nil => intro ys i hi; simp at hi
  | cons a t ih =>
    intro ys i hi
    cases i with
    | zero => simp
    | succ m => simpa using ih ys m (by simpa using hi)

theorem take_append_len {α : Type} :
    ∀ (xs ys : List α) (t : Nat), (xs ++ ys).take (xs.length + t) = xs ++ ys.take t := by
  intro xs
  induction xs with
  | nil => intro ys t; simp
  | cons a u ih =>
    intro ys t
    simpa [Nat.succ_add] using ih ys t

theorem take_append_le {α : Type} :
    ∀ (xs ys : List α) (m : Nat), m ≤ xs.length →
      (xs ++ ys).take m = xs.take m := by
  intro xs
  induction xs with
  | nil => intro ys m hm; simp_all
  | cons a u ih =>
    intro ys m hm
    cases m with
    | zero => simp
    | succ k =>
      simp only [List.cons_append, List.take]
      exact congrArg (List.cons a) (ih ys k (by simpa using hm))

theorem drop_append_le {α : Type} :
    ∀ (xs ys : List α) (n : Nat), n ≤ xs.length →
      (xs ++ ys).drop n = xs.drop n ++ ys := by
  intro xs
  induction xs with
  | nil => intro ys n hn; simp_all
  | cons a u ih =>
    intro ys n hn
    cases n with
    | zero => simp
    | succ k =>
      simp only [List.cons_append, List.drop]
      exact ih ys k (by simpa using hn)

theorem getD_mem_of_lt {α : Type} (d : α) :
    ∀ (l : List α) (n : Nat), n < l.length → l.getD n d ∈ l := by
  intro l
  induction l with
  | nil => intro n hn; simp at hn
  | cons a t ih =>
    intro n hn
    cases n with
    | zero => simp
    | succ m =>
      simp only [List.getD_cons_succ]
      exact List.mem_cons_of_mem a (ih m (by simpa using hn))

/-! ### Characterisation of the last visible layer -/

theorem last_visible_index_eq_aux (t : List Layer) :
    ∀ (a : Option Nat) (i : Nat),
      (t.foldl
        (fun acc l => (if sigil l ≠ '_' then some acc.2 else acc.1, acc.2 + 1))
        (a, i)).1
      = match lastVisibleIdxFrom t i with
        | some j => some j
        | none => a := by
  induction t with
  | nil => intro a i; simp [lastVisibleIdxFrom]
  | cons l u ih =>
    intro a i
    by_cases hl : sigil l = '_'
    · simp only [List.foldl, lastVisibleIdxFrom, hl]
      rw [ih]
      cases h : lastVisibleIdxFrom u (i + 1) <;> simp [hl]
    · simp only [List.foldl, lastVisibleIdxFrom, hl]
      rw [ih]
      cases h : lastVisibleIdxFrom u (i + 1) <;> simp [hl]

/-- The source-shaped fold of lines 71-76 computes `lastVisibleIdx`. -/
theorem last_visible_index_eq (layers : List Layer) :
    last_visible_index layers = lastVisibleIdx layers := by
  unfold last_visible_index lastVisibleIdx
  rw [last_visible_index_eq_aux layers none 0]
  cases h : lastVisibleIdxFrom layers 0 <;> simp

theorem lastVisibleIdxFrom_spec (t : List Layer) :
    ∀ i : Nat,
      (lastVisibleIdxFrom t i = none ∧ ∀ l ∈ t, sigil l = '_')
      ∨ (∃ k, k < t.length ∧ lastVisibleIdxFrom t i = some (i + k)
          ∧ sigil (t.getD k defaultLayer) ≠ '_'
          ∧ ∀ m, k < m → m < t.length → sigil (t.getD m defaultLayer) = '_') := by
  induction t with
  | nil => intro i; left; simp [lastVisibleIdxFrom]
  | cons l u ih =>
    intro i
    rcases ih (i + 1) with ⟨hnone, hall⟩ | ⟨k, hk, heq, hs, hafter⟩
    · by_cases hl : sigil l = '_'
      · left
        constructor
        · simp [lastVisibleIdxFrom, hnone, hl]
        · intro x hx
          rcases List.mem_cons.mp hx with rfl | hx
          · exact hl
          · exact hall x hx
      · right
        refine ⟨0, by simp, ?_, by simpa using hl, ?_⟩
        · simp [lastVisibleIdxFrom, hnone, hl]
        · intro m hm hmlen
          cases m with
          | zero => omega
          | succ m' =>
            simp only [List.getD_cons_succ]
            exact hall _ (getD_mem_of_lt _ u m' (by simpa using hmlen))
    · right
      refine ⟨k + 1, by simpa using hk, ?_, by simpa using hs, ?_⟩
      · simp only [lastVisibleIdxFrom, heq]
        congr 1
        omega
      · intro m hm hmlen
        cases m with
        | zero => omega
        | succ m' =>
          simp only [List.getD_cons_succ]
          exact hafter m' (by omega) (by simpa using hmlen)

theorem lastVisibleIdx_spec (F : List Layer) :
    (lastVisibleIdx F = none ∧ ∀ l ∈ F, sigil l = '_')
    ∨ (∃ k, k < F.length ∧ lastVisibleIdx F = some k
        ∧ sigil (F.getD k defaultLayer) ≠ '_'
        ∧ ∀ m, k < m → m < F.length → sigil (F.getD m defaultLayer) = '_') := by
  rcases lastVisibleIdxFrom_spec F 0 with h | ⟨k, hk, heq, hs, hafter⟩
  · exact Or.inl h
  · exact Or.inr ⟨k, hk, by simpa using heq, hs, hafter⟩

/-- If the layer at index `p` is not a base layer, the last visible index
exists and is at least `p` (and in range). -/
theorem lastVisibleIdx_ge (F : List Layer) (p : Nat) (hp : p < F.length)
    (hs : sigil (F.getD p defaultLayer) ≠ '_') :
    ∃ j, lastVisibleIdx F = some j ∧ p ≤ j ∧ j < F.length ∧
      sigil (F.getD j defaultLayer) ≠ '_' := by
  rcases lastVisibleIdx_spec F with ⟨_, hall⟩ | ⟨k, hk, heq, hks, hafter⟩
  · exact absurd (hall _ (getD_mem_of_lt _ F p hp)) hs
  · refine ⟨k, heq, ?_, hk, hks⟩
    by_contra hlt
    exact hs (hafter p (by omega) hp)

/-- If everything after a non-base layer at `p` is base, then `p` is the
last visible index. -/
theorem lastVisibleIdx_eq_of_last (F : List Layer) (p : Nat) (hp : p < F.length)
    (hs : sigil (F.getD p defaultLayer) ≠ '_')
    (hafterp : ∀ q, p < q → q < F.length → sigil (F.getD q defaultLayer) = '_') :
    lastVisibleIdx F = some p := by
  rcases lastVisibleIdx_spec F with ⟨_, hall⟩ | ⟨k, hk, heq, hks, hafter⟩
  · exact absurd (hall _ (getD_mem_of_lt _ F p hp)) hs
  · have : k = p := by
      rcases Nat.lt_trichotomy k p with h | h | h
      · exact absurd (hafter p h hp) hs
      · exact h
      · exact absurd (hafterp k h hk) hks
    rw [heq, this]

/-! ### Unfolding the main pass -/

theorem composeUpTo_succ_lt (c : Bool) (F : List Layer) (p : Nat)
    (hp : p < F.length) :
    composeUpTo c F (p + 1) = stepLayer c F p (composeUpTo c F p) := by
  simp [composeUpTo, hp]

theorem composeUpTo_succ_ge (c : Bool) (F : List Layer) (p : Nat)
    (hp : ¬ p < F.length) :
    composeUpTo c F (p + 1) = composeUpTo c F p := by
  simp [composeUpTo, hp]

/-- Full description of one loop iteration at an in-range index `p`: the
step produces an intermediate state `st1` (the classification update of
lines 88-98), and either defers or emits it.  In particular the `oob`
branch of the lookahead is never taken: the lookahead is only performed
when the current layer is not the last visible one, and then a later
non-base layer guarantees `p + 1` is in range. -/
theorem stepLayer_spec (c : Bool) (F : List Layer) (p : Nat)
    (st : ComposerState) (hp : p < F.length) :
    ∃ (st1 : ComposerState) (emitted : Bool),
      stepLayer c F p st = (if emitted then emit st1 else st1)
      ∧ st1.page_count = st.page_count
      ∧ st1.requests = st.requests
      ∧ st1.oob = st.oob
      ∧ ((sigil (F.getD p defaultLayer) = '_'
            ∧ emitted = false
            ∧ st1.base_layers = st.base_layers ++ [F.getD p defaultLayer]
            ∧ st1.visible_layers = st.visible_layers
            ∧ st1.slide_num = st.slide_num)
        ∨ (sigil (F.getD p defaultLayer) ≠ '_'
            ∧ st1.base_layers = st.base_layers
            ∧ (lastVisibleIdx F = some p → emitted = true)
            ∧ ((sigil (F.getD p defaultLayer) = '+'
                  ∧ st1.visible_layers = st.visible_layers ++ [F.getD p defaultLayer]
                  ∧ st1.slide_num = st.slide_num)
              ∨ (sigil (F.getD p defaultLayer) ≠ '+'
                  ∧ st1.visible_layers = st.base_layers ++ [F.getD p defaultLayer]
                  ∧ st1.slide_num = st.slide_num + 1))))
      ∧ (emitted = false →
          sigil (F.getD p defaultLayer) = '_'
          ∨ (p + 1 < F.length
              ∧ (sigil (F.getD (p + 1) defaultLayer) = '+'
                ∨ sigil (F.getD (p + 1) defaultLayer) = '.'))) := by
  by_cases h1 : sigil (F.getD p defaultLayer) = '_'
  · refine ⟨{ st with base_layers := st.base_layers ++ [F.getD p defaultLayer] },
      false, ?_, rfl, rfl, rfl, Or.inl ⟨h1, rfl, rfl, rfl, rfl⟩,
      fun _ => Or.inl h1⟩
    simp only [stepLayer]
    rw [if_pos h1]
    rfl
  · have hup :
        ∀ st1 : ComposerState,
          st1 = (if sigil (F.getD p defaultLayer) = '+' then
                  { st with
                    visible_layers := st.visible_layers ++ [F.getD p defaultLayer] }
                else
                  { st with
                    visible_layers := st.base_layers ++ [F.getD p defaultLayer],
                    slide_num := st.slide_num + 1 }) →
          st1.page_count = st.page_count ∧ st1.requests = st.requests
          ∧ st1.oob = st.oob ∧ st1.base_layers = st.base_layers
          ∧ ((sigil (F.getD p defaultLayer) = '+'
                ∧ st1.visible_layers = st.visible_layers ++ [F.getD p defaultLayer]
                ∧ st1.slide_num = st.slide_num)
            ∨ (sigil (F.getD p defaultLayer) ≠ '+'
                ∧ st1.visible_layers = st.base_layers ++ [F.getD p defaultLayer]
                ∧ st1.slide_num = st.slide_num + 1)) := by
      intro st1 hdef
      by_cases h2 : sigil (F.getD p defaultLayer) = '+'
      · rw [hdef, if_pos h2]
        exact ⟨rfl, rfl, rfl, rfl, Or.inl ⟨h2, rfl, rfl⟩⟩
      · rw [hdef, if_neg h2]
        exact ⟨rfl, rfl, rfl, rfl, Or.inr ⟨h2, rfl, rfl⟩⟩
    by_cases h3 : c = true ∧ some p ≠ lastVisibleIdx F
    · have h5 : p + 1 < F.length := by
        by_contra h5
        obtain ⟨j, hj, hpj, hjlen, _⟩ := lastVisibleIdx_ge F p hp h1
        have : j = p := by omega
        exact h3.2 (by rw [hj, this])
      by_cases h4 : sigil (F.getD (p + 1) defaultLayer) = '+'
          ∨ sigil (F.getD (p + 1) defaultLayer) = '.'
      · refine ⟨(if sigil (F.getD p defaultLayer) = '+' then
            { st with
              visible_layers := st.visible_layers ++ [F.getD p defaultLayer] }
          else
            { st with
              visible_layers := st.base_layers ++ [F.getD p defaultLayer],
              slide_num := st.slide_num + 1 }), false, ?_, ?_⟩
        · simp only [stepLayer]
          rw [if_neg h1, if_pos h3, if_pos h5, if_pos h4]
          rfl
        · obtain ⟨ha, hb, hc, hd, he⟩ := hup _ rfl
          exact ⟨ha, hb, hc,
            Or.inr ⟨h1, hd, fun hlv => absurd hlv.symm h3.2, he⟩,
            fun _ => Or.inr ⟨h5, h4⟩⟩
      · refine ⟨(if sigil (F.getD p defaultLayer) = '+' then
            { st with
              visible_layers := st.visible_layers ++ [F.getD p defaultLayer] }
          else
            { st with
              visible_layers := st.base_layers ++ [F.getD p defaultLayer],
              slide_num := st.slide_num + 1 }), true, ?_, ?_⟩
        · simp only [stepLayer]
          rw [if_neg h1, if_pos h3, if_pos h5, if_neg h4]
          rfl
        · obtain ⟨ha, hb, hc, hd, he⟩ := hup _ rfl
          exact ⟨ha, hb, hc, Or.inr ⟨h1, hd, fun _ => rfl, he⟩,
            fun hfalse => nomatch hfalse⟩
    · refine ⟨(if sigil (F.getD p defaultLayer) = '+' then
            { st with
              visible_layers := st.visible_layers ++ [F.getD p defaultLayer] }
          else
            { st with
              visible_layers := st.base_layers ++ [F.getD p defaultLayer],
              slide_num := st.slide_num + 1 }), true, ?_, ?_⟩
      · simp only [stepLayer]
        rw [if_neg h1, if_neg h3]
        rfl
      · obtain ⟨ha, hb, hc, hd, he⟩ := hup _ rfl
        exact ⟨ha, hb, hc, Or.inr ⟨h1, hd, fun _ => rfl, he⟩,
          fun hfalse => nomatch hfalse⟩

/-! ### Small evaluation helpers for the sigil predicates -/

theorem filter_single {α : Type} (pb : α → Bool) (x : α) :
    List.filter pb [x] = if pb x then [x] else [] := by
  by_cases h : pb x <;> simp [h]

theorem countP_single {α : Type} (pb : α → Bool) (x : α) :
    List.countP pb [x] = if pb x then 1 else 0 := by
  by_cases h : pb x <;> simp [h]

theorem isBaseL_pos {l : Layer} (h : sigil l = '_') : isBaseL l = true := by
  simp [isBaseL, h]

theorem isBaseL_neg {l : Layer} (h : sigil l ≠ '_') : ¬ isBaseL l = true := by
  simp [isBaseL, h]

theorem isAddL_pos {l : Layer} (h : sigil l = '+') : isAddL l = true := by
  simp [isAddL, h]

theorem isAddL_neg {l : Layer} (h : sigil l ≠ '+') : ¬ isAddL l = true := by
  simp [isAddL, h]

theorem isAddL_neg_of_base {l : Layer} (h : sigil l = '_') : ¬ isAddL l = true := by
  simp [isAddL, h]

theorem isNormL_false_of_base {l : Layer} (h : sigil l = '_') : isNormL l = false := by
  simp [isNormL, h]

theorem isNormL_false_of_add {l : Layer} (h : sigil l = '+') : isNormL l = false := by
  simp [isNormL, h]

theorem isNormL_neg_of_base {l : Layer} (h : sigil l = '_') : ¬ isNormL l = true := by
  simp [isNormL, h]

theorem isNormL_neg_of_add {l : Layer} (h : sigil l = '+') : ¬ isNormL l = true := by
  simp [isNormL, h]

theorem isNormL_true_of {l : Layer} (h1 : sigil l ≠ '_') (h2 : sigil l ≠ '+') :
    isNormL l = true := by
  simp [isNormL, h1, h2]

theorem drop_all_of_le {α : Type} :
    ∀ (l : List α) (n : Nat), l.length ≤ n → l.drop n = [] := by
  intro l
  induction l with
  | nil => intro n _; simp
  | cons a t ih =>
    intro n hn
    cases n with
    | zero => simp at hn
    | succ m => exact ih m (by simpa using hn)

/-- Main invariants of the pass: `page_count` counts the emitted
requests, `base_layers` is exactly the base layers seen so far (line 90:
append-only), `slide_num` counts the normal layers seen so far (line 98),
the lookahead never ran out of range, and `visible_layers` is as
described by `VisInv`. -/
theorem compose_inv (c : Bool) (F : List Layer) :
    ∀ p, p ≤ F.length →
      (composeUpTo c F p).page_count = (composeUpTo c F p).requests.length
      ∧ (composeUpTo c F p).base_layers = (F.take p).filter isBaseL
      ∧ (composeUpTo c F p).slide_num = (F.take p).countP isNormL
      ∧ (composeUpTo c F p).oob = false
      ∧ VisInv F p (composeUpTo c F p).visible_layers := by
  intro p
  induction p with
  | zero =>
    intro _
    exact ⟨rfl, by simp [composeUpTo, initState], by simp [composeUpTo, initState],
      rfl, Or.inl ⟨by simp, by simp [composeUpTo, initState]⟩⟩
  | succ p ih =>
    intro hp1
    have hp : p < F.length := hp1
    obtain ⟨ihA, ihB, ihC, ihD, ihE⟩ := ih (Nat.le_of_lt hp)
    obtain ⟨st1, emitted, heq, hpg, hrq, hob, hcases, _⟩ :=
      stepLayer_spec c F p (composeUpTo c F p) hp
    have htake := take_succ_getD defaultLayer F p hp
    have hB1 : st1.base_layers = (F.take (p + 1)).filter isBaseL := by
      rcases hcases with ⟨h1, _, hbase, _, _⟩ | ⟨h1, hbase, _, _⟩
      · rw [hbase, ihB, htake, List.filter_append, filter_single,
          if_pos (isBaseL_pos h1)]
      · rw [hbase, ihB, htake, List.filter_append, filter_single,
          if_neg (isBaseL_neg h1), List.append_nil]
    have hC1 : st1.slide_num = (F.take (p + 1)).countP isNormL := by
      rcases hcases with ⟨h1, _, _, _, hsl⟩ | ⟨h1, _, _, hsub⟩
      · rw [hsl, ihC, htake, List.countP_append, countP_single,
          if_neg (isNormL_neg_of_base h1)]
        omega
      · rcases hsub with ⟨h2, _, hsl⟩ | ⟨h2, _, hsl⟩
        · rw [hsl, ihC, htake, List.countP_append, countP_single,
            if_neg (isNormL_neg_of_add h2)]
          omega
        · rw [hsl, ihC, htake, List.countP_append, countP_single,
            if_pos (isNormL_true_of h1 h2)]
    have hE1 : VisInv F (p + 1) st1.visible_layers := by
      rcases hcases with ⟨h1, _, _, hvis, _⟩ | ⟨h1, _, _, hsub⟩
      · -- base layer: visible layers unchanged
        rw [hvis]
        rcases ihE with ⟨hnn, hveq⟩ | ⟨m, hm, hmn, hnn, hveq⟩
        · left
          refine ⟨?_, ?_⟩
          · intro x hx
            rw [htake] at hx
            rcases List.mem_append.mp hx with hx | hx
            · exact hnn x hx
            · rw [List.mem_singleton.mp hx]
              exact isNormL_false_of_base h1
          · rw [hveq, htake, List.filter_append, filter_single,
              if_neg (isAddL_neg_of_base h1), List.append_nil]
        · right
          refine ⟨m, Nat.lt_succ_of_lt hm, hmn, ?_, ?_⟩
          · intro q hq1 hq2
            rcases Nat.lt_succ_iff_lt_or_eq.mp hq2 with hq2 | rfl
            · exact hnn q hq1 hq2
            · exact isNormL_false_of_base h1
          · have hlen : m + 1 ≤ (F.take p).length := by
              rw [List.length_take]; omega
            rw [hveq, htake, drop_append_le _ _ _ hlen, List.filter_append,
              filter_single, if_neg (isAddL_neg_of_base h1), List.append_nil]
      · rcases hsub with ⟨h2, hvis, _⟩ | ⟨h2, hvis, _⟩
        · -- additive layer: appended to the visible list
          rw [hvis]
          rcases ihE with ⟨hnn, hveq⟩ | ⟨m, hm, hmn, hnn, hveq⟩
          · left
            refine ⟨?_, ?_⟩
            · intro x hx
              rw [htake] at hx
              rcases List.mem_append.mp hx with hx | hx
              · exact hnn x hx
              · rw [List.mem_singleton.mp hx]
                exact isNormL_false_of_add h2
            · rw [hveq, htake, List.filter_append, filter_single,
                if_pos (isAddL_pos h2)]
          · right
            refine ⟨m, Nat.lt_succ_of_lt hm, hmn, ?_, ?_⟩
            · intro q hq1 hq2
              rcases Nat.lt_succ_iff_lt_or_eq.mp hq2 with hq2 | rfl
              · exact hnn q hq1 hq2
              · exact isNormL_false_of_add h2
            · have hlen : m + 1 ≤ (F.take p).length := by
                rw [List.length_take]; omega
              rw [hveq, htake, drop_append_le _ _ _ hlen, List.filter_append,
                filter_single, if_pos (isAddL_pos h2)]
              simp only [List.append_assoc, List.cons_append]
        · -- normal layer: reset to base layers plus this one
          right
          refine ⟨p, Nat.lt_succ_self p, isNormL_true_of h1 h2, ?_, ?_⟩
          · intro q hq1 hq2
            exact absurd hq1 (by omega)
          · have hdrop : (F.take (p + 1)).drop (p + 1) = [] :=
              drop_all_of_le _ _ (by rw [List.length_take]; omega)
            rw [hvis, ihB, hdrop, List.filter_nil]
    have hproj :
        (if emitted then emit st1 else st1).base_layers = st1.base_layers
        ∧ (if emitted then emit st1 else st1).slide_num = st1.slide_num
        ∧ (if emitted then emit st1 else st1).visible_layers = st1.visible_layers
        ∧ (if emitted then emit st1 else st1).oob = st1.oob := by
      cases emitted <;> simp [emit]
    have hA' : (if emitted then emit st1 else st1).page_count
        = (if emitted then emit st1 else st1).requests.length := by
      cases emitted <;> simp [emit, hpg, hrq, ihA]
    rw [composeUpTo_succ_lt c F p hp, heq]
    refine ⟨hA', ?_, ?_, ?_, ?_⟩
    · rw [hproj.1]; exact hB1
    · rw [hproj.2.1]; exact hC1
    · rw [hproj.2.2.2, hob]; exact ihD
    · rw [hproj.2.2.1]; exact hE1

/-- One iteration appends either no request or exactly one request, whose
slide number and visible set are those of the post-update state and whose
output index is the number of previously emitted requests. -/
theorem step_requests (c : Bool) (F : List Layer) (p : Nat) (hp : p < F.length) :
    (composeUpTo c F (p + 1)).requests = (composeUpTo c F p).requests
    ∨ (composeUpTo c F (p + 1)).requests = (composeUpTo c F p).requests
        ++ [⟨(composeUpTo c F (p + 1)).slide_num,
             (composeUpTo c F p).requests.length,
             (composeUpTo c F (p + 1)).visible_layers⟩] := by
  obtain ⟨st1, emitted, heq, hpg, hrq, hob, _, _⟩ :=
    stepLayer_spec c F p (composeUpTo c F p) hp
  have hA := (compose_inv c F p (Nat.le_of_lt hp)).1
  rw [composeUpTo_succ_lt c F p hp, heq]
  cases emitted with
  | false => left; simpa using hrq
  | true => right; simp [emit, hrq, hpg, hA]

/-- The request list only grows along the pass, and every newly emitted
request records the slide number and visible set of the state right after
some intermediate step. -/
theorem requests_growth (c : Bool) (F : List Layer) (p : Nat) :
    ∀ q, p ≤ q → q ≤ F.length →
      ∃ rest, (composeUpTo c F q).requests = (composeUpTo c F p).requests ++ rest
        ∧ ∀ r ∈ rest, ∃ s, p < s ∧ s ≤ q
            ∧ r.slide_number = (composeUpTo c F s).slide_num
            ∧ r.visible_layer_set = (composeUpTo c F s).visible_layers := by
  intro q hpq
  induction q, hpq using Nat.le_induction with
  | base => intro _; exact ⟨[], by simp, by simp⟩
  | succ q hq ihq =>
    intro hq1
    have hqlen : q < F.length := hq1
    obtain ⟨rest, hr, ht⟩ := ihq (Nat.le_of_lt hqlen)
    rcases step_requests c F q hqlen with h | h
    · refine ⟨rest, by rw [h, hr], ?_⟩
      intro r hrr
      obtain ⟨s, hs1, hs2, hs3, hs4⟩ := ht r hrr
      exact ⟨s, hs1, by omega, hs3, hs4⟩
    · refine ⟨rest ++ [⟨(composeUpTo c F (q + 1)).slide_num,
        (composeUpTo c F q).requests.length,
        (composeUpTo c F (q + 1)).visible_layers⟩], ?_, ?_⟩
      · rw [h, hr, List.append_assoc]
      · intro r hrr
        rcases List.mem_append.mp hrr with hrr | hrr
        · obtain ⟨s, hs1, hs2, hs3, hs4⟩ := ht r hrr
          exact ⟨s, hs1, by omega, hs3, hs4⟩
        · rw [List.mem_singleton.mp hrr]
          exact ⟨q + 1, by omega, le_refl _, rfl, rfl⟩

/-- `slide_num` never decreases along the pass. -/
theorem slide_mono (c : Bool) (F : List Layer) (p q : Nat) (hpq : p ≤ q)
    (hql : q ≤ F.length) :
    (composeUpTo c F p).slide_num ≤ (composeUpTo c F q).slide_num := by
  have h1 := (compose_inv c F p (le_trans hpq hql)).2.2.1
  have h2 := (compose_inv c F q hql).2.2.1
  rw [h1, h2]
  have hsplit : F.take q = F.take p ++ (F.take q).drop p := by
    conv_lhs => rw [← List.take_append_drop p (F.take q)]
    rw [List.take_take, Nat.min_eq_left hpq]
  rw [hsplit, List.countP_append]
  omega

/-- The layer at the last visible index always emits: the deferral guard
`l != last_visible_layer` fails there, so lines 107-119 run. -/
theorem last_emits (c : Bool) (F : List Layer) (j : Nat)
    (hj : lastVisibleIdx F = some j) :
    ∃ r, (composeUpTo c F (j + 1)).requests = (composeUpTo c F j).requests ++ [r]
      ∧ F.getD j defaultLayer ∈ r.visible_layer_set := by
  rcases lastVisibleIdx_spec F with ⟨hn, _⟩ | ⟨k, hk, heqk, hks, _⟩
  · exact absurd hj (by simp [hn])
  · have hkj : k = j := Option.some_inj.mp (heqk.symm.trans hj)
    subst hkj
    obtain ⟨st1, emitted, heq, hpg, hrq, hob, hcases, _⟩ :=
      stepLayer_spec c F k (composeUpTo c F k) hk
    rcases hcases with ⟨h1, _, _, _, _⟩ | ⟨h1, _, hemit, hsub⟩
    · exact absurd h1 hks
    · have hem := hemit hj
      subst hem
      rw [composeUpTo_succ_lt c F k hk, heq]
      refine ⟨⟨st1.slide_num, st1.page_count, st1.visible_layers⟩, ?_, ?_⟩
      · simp [emit, hrq]
      · rcases hsub with ⟨h2, hvis, _⟩ | ⟨h2, hvis, _⟩ <;>
          · rw [hvis]
            exact List.mem_append_right _ (List.mem_singleton_self _)

/-! ### Further list helpers -/

theorem filter_self_of_all {α : Type} (pb : α → Bool) :
    ∀ l : List α, (∀ x ∈ l, pb x = true) → l.filter pb = l := by
  intro l
  induction l with
  | nil => intro _; rfl
  | cons a t ih =>
    intro h
    rw [List.filter_cons, if_pos (h a (List.mem_cons_self a t)),
      ih (fun x hx => h x (List.mem_cons_of_mem a hx))]

theorem filter_nil_of_none {α : Type} (pb : α → Bool) :
    ∀ l : List α, (∀ x ∈ l, ¬ pb x = true) → l.filter pb = [] := by
  intro l
  induction l with
  | nil => intro _; rfl
  | cons a t ih =>
    intro h
    rw [List.filter_cons, if_neg (h a (List.mem_cons_self a t)),
      ih (fun x hx => h x (List.mem_cons_of_mem a hx))]

theorem countP_all {α : Type} (pb : α → Bool) :
    ∀ l : List α, (∀ x ∈ l, pb x = true) → l.countP pb = l.length := by
  intro l
  induction l with
  | nil => intro _; rfl
  | cons a t ih =>
    intro h
    rw [List.countP_cons, if_pos (h a (List.mem_cons_self a t)),
      ih (fun x hx => h x (List.mem_cons_of_mem a hx)), List.length_cons]

theorem getD_map_range {α : Type} (d : α) (f : Nat → α) (n k : Nat) (hk : k < n) :
    (((List.range n).map f).getD k d) = f k := by
  have hlen : k < ((List.range n).map f).length := by
    rw [List.length_map, List.length_range]; exact hk
  rw [List.getD_eq_getElem _ _ hlen]
  simp

theorem getLast?_mem_own {α : Type} :
    ∀ (l : List α) (a : α), l.getLast? = some a → a ∈ l := by
  intro l
  induction l with
  | nil => intro a h; simp at h
  | cons x t ih =>
    intro a h
    cases t with
    | nil =>
      simp only [List.getLast?_singleton, Option.some_inj] at h
      rw [h]; exact List.mem_singleton_self a
    | cons y u =>
      rw [List.getLast?_cons_cons] at h
      exact List.mem_cons_of_mem x (ih a h)

theorem chain_le_append_last (xs : List Nat) (a : Nat)
    (hc : List.Chain' (· ≤ ·) xs) (ha : ∀ x ∈ xs, x ≤ a) :
    List.Chain' (· ≤ ·) (xs ++ [a]) := by
  rw [List.chain'_append]
  refine ⟨hc, List.chain'_singleton a, ?_⟩
  intro x hx y hy
  simp only [List.head?_cons, Option.mem_def, Option.some_inj] at hy
  rw [← hy]
  exact ha x (getLast?_mem_own xs x hx)

/-! ### A run over normal layers only -/

/-- If every layer of the working list is Normal (no sigil), then after
`p` steps exactly `p` requests have been emitted, the `k`-th one being
slide `k + 1`, page `k`, showing exactly the `k`-th layer. -/
theorem allNormal_requests (c : Bool) (F : List Layer)
    (hall : ∀ l ∈ F, isSpecNormal l = true) :
    ∀ p, p ≤ F.length →
      (composeUpTo c F p).requests
        = (List.range p).map (fun k => ⟨k + 1, k, [F.getD k defaultLayer]⟩) := by
  have hsig : ∀ l ∈ F, sigil l ≠ '.' ∧ sigil l ≠ '_' ∧ sigil l ≠ '+' := by
    intro l hl
    have h := hall l hl
    simp only [isSpecNormal, Bool.and_eq_true, bne_iff_ne, ne_eq,
      decide_eq_true_eq] at h
    · exact ⟨by simpa using h.1.1, by simpa using h.1.2, by simpa using h.2⟩
  intro p
  induction p with
  | zero => intro _; rfl
  | succ p ih =>
    intro hp1
    have hp : p < F.length := hp1
    have hmem := getD_mem_of_lt defaultLayer F p hp
    obtain ⟨hnh, hnb, hna⟩ := hsig _ hmem
    obtain ⟨st1, emitted, heq, hpg, hrq, hob, hcases, hdefer⟩ :=
      stepLayer_spec c F p (composeUpTo c F p) hp
    have hem : emitted = true := by
      cases emitted with
      | true => rfl
      | false =>
        rcases hdefer rfl with h | ⟨hlt, hnx⟩
        · exact absurd h hnb
        · obtain ⟨_, hnb', hna'⟩ := hsig _ (getD_mem_of_lt defaultLayer F (p + 1) hlt)
          rcases hnx with h | h
          · exact absurd h hna'
          · exact absurd h ((hsig _ (getD_mem_of_lt defaultLayer F (p + 1) hlt)).1)
    subst hem
    rcases hcases with ⟨h1, _, _, _, _⟩ | ⟨h1, _, _, hsub⟩
    · exact absurd h1 hnb
    rcases hsub with ⟨h2, _, _⟩ | ⟨h2, hvis, hsl⟩
    · exact absurd h2 hna
    have ihreq := ih (Nat.le_of_lt hp)
    have hinv := compose_inv c F p (Nat.le_of_lt hp)
    have hslide : (composeUpTo c F p).slide_num = p := by
      rw [hinv.2.2.1]
      rw [countP_all isNormL _ (fun x hx =>
        isNormL_true_of ((hsig x (List.mem_of_mem_take hx)).2.1)
          ((hsig x (List.mem_of_mem_take hx)).2.2))]
      rw [List.length_take]; omega
    have hpage : (composeUpTo c F p).page_count = p := by
      rw [hinv.1, ihreq, List.length_map, List.length_range]
    have hbase : (composeUpTo c F p).base_layers = [] := by
      rw [hinv.2.1]
      exact filter_nil_of_none isBaseL _ (fun x hx =>
        isBaseL_neg ((hsig x (List.mem_of_mem_take hx)).2.1))
    rw [composeUpTo_succ_lt c F p hp, heq]
    simp only [if_pos rfl]
    rw [List.range_succ, List.map_append]
    simp only [emit, List.map_cons, List.map_nil]
    rw [hrq, ihreq, hvis, hsl, hbase, hslide, hpg, hpage]
    rfl

/-- Emitted slide numbers never decrease, and stay below the running
`slide_num`. -/
theorem slides_chain (c : Bool) (F : List Layer) :
    ∀ p, p ≤ F.length →
      List.Chain' (· ≤ ·)
        ((composeUpTo c F p).requests.map RenderRequest.slide_number)
      ∧ ∀ r ∈ (composeUpTo c F p).requests,
          r.slide_number ≤ (composeUpTo c F p).slide_num := by
  intro p
  induction p with
  | zero =>
    exact fun _ => ⟨by simp [composeUpTo, initState], by simp [composeUpTo, initState]⟩
  | succ p ih =>
    intro hp1
    have hp : p < F.length := hp1
    obtain ⟨ihc, ihb⟩ := ih (Nat.le_of_lt hp)
    have hmono := slide_mono c F p (p + 1) (Nat.le_succ p) hp1
    rcases step_requests c F p hp with h | h
    · refine ⟨by rw [h]; exact ihc, ?_⟩
      intro r hr
      rw [h] at hr
      exact le_trans (ihb r hr) hmono
    · constructor
      · rw [h, List.map_append, List.map_cons, List.map_nil]
        refine chain_le_append_last _ _ ihc ?_
        intro x hx
        obtain ⟨r, hr, rfl⟩ := List.mem_map.mp hx
        exact le_trans (ihb r hr) hmono
      · intro r hr
        rw [h] at hr
        rcases List.mem_append.mp hr with hr | hr
        · exact le_trans (ihb r hr) hmono
        · rw [List.mem_singleton.mp hr]

/-- C1: with flattening on, the run [Normal A, Additive B, Normal C]
emits exactly the two requests {A,B} (slide 1, page 0) and {C} (slide 2,
page 1), skipping the intermediate {A}-only state; with flattening off it
emits the three requests {A}, {A,B}, {C}. -/
theorem c1_flattening_pair :
    (compose true [⟨0, "A"⟩, ⟨1, "+B"⟩, ⟨2, "C"⟩]).requests =
      [⟨1, 0, [⟨0, "A"⟩, ⟨1, "+B"⟩]⟩, ⟨2, 1, [⟨2, "C"⟩]⟩]
    ∧ (compose false [⟨0, "A"⟩, ⟨1, "+B"⟩, ⟨2, "C"⟩]).requests =
      [⟨1, 0, [⟨0, "A"⟩]⟩, ⟨1, 1, [⟨0, "A"⟩, ⟨1, "+B"⟩]⟩, ⟨2, 2, [⟨2, "C"⟩]⟩] :=
  ⟨by decide, by decide⟩

/-- C2: on a list of N Normal layers (no sigils at all), the composer
emits exactly N requests in order, the k-th (0-based) carrying
slide_number k+1, output_index k, and showing exactly layer k. -/
theorem c2_all_normal (c : Bool) (ls : List Layer)
    (hall : ∀ l ∈ ls, isSpecNormal l = true) :
    (compose c ls).requests.length = ls.length
    ∧ ∀ k, k < ls.length →
        (compose c ls).requests.getD k defaultRequest
          = ⟨k + 1, k, [ls.getD k defaultLayer]⟩ := by
  have hfil : filterHidden ls = ls := by
    refine filter_self_of_all notHidden ls (fun x hx => ?_)
    have h := hall x hx
    simp only [isSpecNormal, Bool.and_eq_true] at h
    exact h.1.1
  have hreq :
      (compose c ls).requests
        = (List.range ls.length).map
            (fun k => ⟨k + 1, k, [ls.getD k defaultLayer]⟩) := by
    have h := allNormal_requests c ls hall ls.length (le_refl _)
    unfold compose
    rw [hfil]
    exact h
  rw [hreq]
  constructor
  · rw [List.length_map, List.length_range]
  · intro k hk
    exact getD_map_range defaultRequest _ ls.length k hk

theorem c2_all_normal_witness :
    (compose false [⟨0, "a"⟩, ⟨1, "b"⟩]).requests.length = 2
    ∧ (compose false [⟨0, "a"⟩, ⟨1, "b"⟩]).requests.getD 1 defaultRequest
      = ⟨2, 1, [⟨1, "b"⟩]⟩ := by
  have h := c2_all_normal false [⟨0, "a"⟩, ⟨1, "b"⟩] (by decide)
  exact ⟨h.1, h.2 1 (by decide)⟩

/-- C4, counterexample: when the first visible layer of the document is
Additive, the request it emits carries slide_number 0, not a 1-based
value; and two successive requests can carry the same slide number, so
the sequence is not strictly increasing either. -/
theorem c4_counterexample :
    (¬ ∀ r ∈ (compose false [⟨0, "+a"⟩]).requests, 1 ≤ r.slide_number)
    ∧ (compose false [⟨0, "a"⟩, ⟨1, "+b"⟩]).requests.map
        RenderRequest.slide_number = [1, 1] :=
  ⟨by decide, by decide⟩

theorem countP_zero_of_none {α : Type} (pb : α → Bool) :
    ∀ l : List α, (∀ x ∈ l, ¬ pb x = true) → l.countP pb = 0 := by
  intro l
  induction l with
  | nil => intro _; rfl
  | cons a t ih =>
    intro h
    rw [List.countP_cons, if_neg (h a (List.mem_cons_self a t)),
      ih (fun x hx => h x (List.mem_cons_of_mem a hx))]

theorem countP_pos_of_mem {α : Type} (pb : α → Bool) :
    ∀ (l : List α) (x : α), x ∈ l → pb x = true → 1 ≤ l.countP pb := by
  intro l
  induction l with
  | nil => intro x hx _; simp at hx
  | cons a t ih =>
    intro x hx hpx
    rw [List.countP_cons]
    rcases List.mem_cons.mp hx with rfl | hx
    · rw [if_pos hpx]; omega
    · have := ih x hx hpx; omega

theorem append_single_inj {α : Type} :
    ∀ (xs : List α) (a b : α), xs ++ [a] = xs ++ [b] → a = b := by
  intro xs
  induction xs with
  | nil => intro a b h; simpa using h
  | cons x t ih =>
    intro a b h
    simp only [List.cons_append, List.cons.injEq] at h
    exact ih a b h.2

/-- C4, amended: the emitted slide numbers form a nondecreasing sequence,
and the request emitted by any given step carries exactly the number of
Normal layers processed up to and including that step — hence it is 0
when no Normal layer has been processed yet (e.g. requests triggered by
Additive layers before the first Normal one), and at least 1 as soon as
one has. -/
theorem c4_amended (c : Bool) (ls : List Layer) :
    List.Chain' (· ≤ ·)
      ((compose c ls).requests.map RenderRequest.slide_number)
    ∧ ∀ p r, p < (filterHidden ls).length →
        (composeUpTo c (filterHidden ls) (p + 1)).requests
          = (composeUpTo c (filterHidden ls) p).requests ++ [r] →
        r.slide_number = ((filterHidden ls).take (p + 1)).countP isNormL
        ∧ ((∀ l ∈ (filterHidden ls).take (p + 1), isNormL l = false) →
            r.slide_number = 0)
        ∧ ((∃ l ∈ (filterHidden ls).take (p + 1), isNormL l = true) →
            1 ≤ r.slide_number) := by
  constructor
  · exact (slides_chain c (filterHidden ls) (filterHidden ls).length (le_refl _)).1
  · intro p r hp heq
    have hcount :
        r.slide_number = ((filterHidden ls).take (p + 1)).countP isNormL := by
      rcases step_requests c (filterHidden ls) p hp with h | h
      · rw [h] at heq
        have hlen := congrArg List.length heq
        simp at hlen
      · rw [h] at heq
        have hr := append_single_inj _ _ _ heq
        rw [← hr]
        exact (compose_inv c (filterHidden ls) (p + 1) hp).2.2.1
    refine ⟨hcount, ?_, ?_⟩
    · intro hnone
      rw [hcount]
      exact countP_zero_of_none isNormL _
        (fun x hx => by rw [hnone x hx]; simp)
    · rintro ⟨l, hl, hnorm⟩
      rw [hcount]
      exact countP_pos_of_mem isNormL _ l hl hnorm

theorem c4_amended_witness :
    List.Chain' (· ≤ ·)
      ((compose false [⟨0, "a"⟩, ⟨1, "+b"⟩]).requests.map
        RenderRequest.slide_number)
    ∧ (⟨0, 0, [⟨0, "+a"⟩]⟩ : RenderRequest).slide_number = 0
    ∧ (⟨1, 1, [⟨0, "a"⟩, ⟨1, "+b"⟩]⟩ : RenderRequest).slide_number
        = ((filterHidden [⟨0, "a"⟩, ⟨1, "+b"⟩]).take 2).countP isNormL := by
  refine ⟨(c4_amended false [⟨0, "a"⟩, ⟨1, "+b"⟩]).1, ?_, ?_⟩
  · exact ((c4_amended false [⟨0, "+a"⟩]).2 0 ⟨0, 0, [⟨0, "+a"⟩]⟩
      (by decide) (by decide)).2.1 (by decide)
  · exact ((c4_amended false [⟨0, "a"⟩, ⟨1, "+b"⟩]).2 1
      ⟨1, 1, [⟨0, "a"⟩, ⟨1, "+b"⟩]⟩ (by decide) (by decide)).1

/-- C5, counterexample: a run whose only layer is a Base layer has a
non-hidden layer but emits no request at all. -/
theorem c5_counterexample :
    (∃ l ∈ [(⟨0, "_b"⟩ : Layer)], sigil l ≠ '.')
    ∧ (compose false [⟨0, "_b"⟩]).requests = [] :=
  ⟨by decide, by decide⟩

/-- C5, amended: the flattening lookahead never reads past the end of the
filtered list (the `oob` flag is never raised), the layer at the last
visible index is always emitted in the very step that processes it, and a
run with at least one non-hidden, non-Base layer emits at least one
request. -/
theorem c5_amended (c : Bool) (ls : List Layer) :
    (compose c ls).oob = false
    ∧ (∀ j, lastVisibleIdx (filterHidden ls) = some j →
        ∃ r, (composeUpTo c (filterHidden ls) (j + 1)).requests
            = (composeUpTo c (filterHidden ls) j).requests ++ [r]
          ∧ (filterHidden ls).getD j defaultLayer ∈ r.visible_layer_set)
    ∧ ((∃ l ∈ ls, sigil l ≠ '.' ∧ sigil l ≠ '_') →
        (compose c ls).requests ≠ []) := by
  refine ⟨(compose_inv c (filterHidden ls) (filterHidden ls).length
      (le_refl _)).2.2.2.1, ?_, ?_⟩
  · intro j hj
    exact last_emits c _ j hj
  · rintro ⟨l, hl, hnh, hnb⟩ hcon
    have hlF : l ∈ filterHidden ls :=
      List.mem_filter.mpr ⟨hl, by simp [notHidden, hnh]⟩
    obtain ⟨i, hi, hieq⟩ := List.getElem_of_mem hlF
    have hsig : sigil ((filterHidden ls).getD i defaultLayer) ≠ '_' := by
      rw [List.getD_eq_getElem _ _ hi, hieq]
      exact hnb
    obtain ⟨j, hj, hij, hjlen, _⟩ := lastVisibleIdx_ge (filterHidden ls) i hi hsig
    obtain ⟨r, hr, _⟩ := last_emits c (filterHidden ls) j hj
    obtain ⟨rest, hrg, _⟩ := requests_growth c (filterHidden ls) (j + 1)
      (filterHidden ls).length (by omega) (le_refl _)
    have hcon' : (composeUpTo c (filterHidden ls)
        (filterHidden ls).length).requests = [] := hcon
    rw [hcon'] at hrg
    have h1 := (List.append_eq_nil.mp hrg.symm).1
    rw [h1] at hr
    exact absurd hr.symm (by simp)

theorem c5_amended_witness : (compose true [⟨0, "a"⟩]).requests ≠ [] :=
  (c5_amended true [⟨0, "a"⟩]).2.2 ⟨⟨0, "a"⟩, by decide, by decide, by decide⟩

/-! ### Positional helpers for split layer lists -/

theorem getD_append_head {α : Type} (d : α) (xs : List α) (y : α) (ys : List α) :
    (xs ++ y :: ys).getD xs.length d = y := by
  have h := getD_append_len d xs (y :: ys) 0
  simpa using h

theorem take_append_self {α : Type} (xs ys : List α) :
    (xs ++ ys).take xs.length = xs := by
  have h := take_append_len xs ys 0
  simp only [Nat.add_zero, List.take_zero, List.append_nil] at h
  exact h

theorem mem_take_append {α : Type} (xs : List α) (y : α) (ys : List α) (m : Nat)
    (hm : xs.length < m) : y ∈ (xs ++ y :: ys).take m := by
  have h1 : m = xs.length + (m - xs.length) := by omega
  rw [h1, take_append_len]
  refine List.mem_append_right _ ?_
  have h2 : m - xs.length = (m - xs.length - 1) + 1 := by omega
  rw [h2, List.take_succ_cons]
  exact List.mem_cons_self _ _

theorem getD_take_eq {α : Type} (d : α) :
    ∀ (F : List α) (s k : Nat), k < s → (F.take s).getD k d = F.getD k d := by
  intro F
  induction F with
  | nil => intro s k _; simp
  | cons a t ih =>
    intro s k h
    cases s with
    | zero => omega
    | succ s' =>
      cases k with
      | zero => simp
      | succ k' =>
        simp only [List.take, List.getD_cons_succ]
        exact ih s' k' (by omega)

theorem getD_mem_take {α : Type} (d : α) (F : List α) (k s : Nat)
    (h1 : k < s) (h2 : k < F.length) : F.getD k d ∈ F.take s := by
  have hlen : k < (F.take s).length := by rw [List.length_take]; omega
  rw [← getD_take_eq d F s k h1]
  exact getD_mem_of_lt d _ k hlen

/-- Hidden-filtering a list split around two distinguished non-hidden
layers distributes over the split. -/
theorem split_decomp (xs ms zs : List Layer) (B n : Layer)
    (hB : sigil B ≠ '.') (hn : sigil n ≠ '.') :
    filterHidden (xs ++ B :: (ms ++ n :: zs))
      = filterHidden xs ++ B :: (filterHidden ms ++ n :: filterHidden zs) := by
  have hB' : notHidden B = true := by simp [notHidden, hB]
  have hn' : notHidden n = true := by simp [notHidden, hn]
  simp only [filterHidden, List.filter_append, List.filter_cons, hB', hn',
    if_true]

/-- A base layer is never in the visible list while every normal layer
processed so far lies at an index where the base layer has not yet been
declared. -/
theorem no_base_in_visible (c : Bool) (F : List Layer) (B : Layer) (k : Nat)
    (hk : k ≤ F.length)
    (hB : sigil B = '_')
    (hnorm : ∀ m, m < k → isNormL (F.getD m defaultLayer) = true →
        B ∉ F.take m) :
    ∀ s, s ≤ k → B ∉ (composeUpTo c F s).visible_layers := by
  intro s hs
  have inv := (compose_inv c F s (le_trans hs hk)).2.2.2.2
  rcases inv with ⟨_, hveq⟩ | ⟨m, hm, hmn, _, hveq⟩
  · rw [hveq]
    intro hmem
    exact absurd (List.mem_filter.mp hmem).2 (isAddL_neg_of_base hB)
  · rw [hveq]
    intro hmem
    rcases List.mem_append.mp hmem with h | h
    · exact hnorm m (by omega) hmn (List.mem_filter.mp h).1
    · rcases List.mem_cons.mp h with h | h
      · have hmn' := hmn
        rw [← h] at hmn'
        exact absurd hmn' (isNormL_neg_of_base hB)
      · exact absurd (List.mem_filter.mp h).2 (isAddL_neg_of_base hB)

/-- Once a normal layer has been processed at an index past the base
layer's position, the base layer is in the visible list of every later
state. -/
theorem base_in_visible (c : Bool) (F : List Layer) (B : Layer) (k : Nat)
    (hklen : k < F.length)
    (hB : sigil B = '_')
    (hkn : isNormL (F.getD k defaultLayer) = true)
    (htake : ∀ m, k ≤ m → B ∈ F.take m) :
    ∀ s, k < s → s ≤ F.length → B ∈ (composeUpTo c F s).visible_layers := by
  intro s hs1 hs2
  have inv := (compose_inv c F s hs2).2.2.2.2
  rcases inv with ⟨hnn, _⟩ | ⟨m, hm, hmn, hnonm, hveq⟩
  · exfalso
    have hkmem : F.getD k defaultLayer ∈ F.take s :=
      getD_mem_take defaultLayer F k s hs1 hklen
    exact Bool.noConfusion (hkn.symm.trans (hnn _ hkmem))
  · have hmk : k ≤ m := by
      by_contra hmk
      exact Bool.noConfusion (hkn.symm.trans (hnonm k (by omega) hs1))
    rw [hveq]
    exact List.mem_append_left _
      (List.mem_filter.mpr ⟨htake m hmk, isBaseL_pos hB⟩)

/-- Index facts for a layer list split as
`xs ++ B :: (ms ++ n :: zs)` with `B` a base layer, `n` a normal layer
and no normal layer in `ms`: writing `F` for the filtered list,
`j` for the position of `B` in it and `k` for the position of `n`,
the lemma gives the range of `k`, normality at `k`, membership of `B`
in every prefix past `j`, that all normal indices below `k` are below
`j`, the prefix shape below `j`, and membership of the entries below `j`
in the filtered `xs`. -/
theorem split_facts (xs ms zs : List Layer) (B n : Layer)
    (hB : sigil B = '_')
    (hn1 : sigil n ≠ '.') (hn2 : sigil n ≠ '_') (hn3 : sigil n ≠ '+')
    (hms : ∀ l ∈ ms, sigil l = '.' ∨ sigil l = '_' ∨ sigil l = '+') :
    ((filterHidden xs).length + 1 + (filterHidden ms).length
        < (filterHidden (xs ++ B :: (ms ++ n :: zs))).length)
    ∧ isNormL ((filterHidden (xs ++ B :: (ms ++ n :: zs))).getD
        ((filterHidden xs).length + 1 + (filterHidden ms).length)
        defaultLayer) = true
    ∧ (∀ m, (filterHidden xs).length < m →
        B ∈ (filterHidden (xs ++ B :: (ms ++ n :: zs))).take m)
    ∧ (∀ m, m < (filterHidden xs).length + 1 + (filterHidden ms).length →
        isNormL ((filterHidden (xs ++ B :: (ms ++ n :: zs))).getD m
          defaultLayer) = true →
        m < (filterHidden xs).length)
    ∧ (∀ m, m ≤ (filterHidden xs).length →
        (filterHidden (xs ++ B :: (ms ++ n :: zs))).take m
          = (filterHidden xs).take m)
    ∧ (∀ q, q < (filterHidden xs).length →
        (filterHidden (xs ++ B :: (ms ++ n :: zs))).getD q defaultLayer
          ∈ filterHidden xs) := by
  have hBnh : sigil B ≠ '.' := by rw [hB]; decide
  have hdec := split_decomp xs ms zs B n hBnh hn1
  have hgdj : (filterHidden (xs ++ B :: (ms ++ n :: zs))).getD
      (filterHidden xs).length defaultLayer = B := by
    rw [hdec]; exact getD_append_head defaultLayer _ _ _
  have hgdk : (filterHidden (xs ++ B :: (ms ++ n :: zs))).getD
      ((filterHidden xs).length + 1 + (filterHidden ms).length)
      defaultLayer = n := by
    rw [hdec]
    have hassoc : filterHidden xs ++ B :: (filterHidden ms ++ n :: filterHidden zs)
        = (filterHidden xs ++ B :: filterHidden ms) ++ n :: filterHidden zs := by
      simp
    rw [hassoc]
    have hlen2 : (filterHidden xs).length + 1 + (filterHidden ms).length
        = (filterHidden xs ++ B :: filterHidden ms).length := by
      simp [List.length_append]
      omega
    rw [hlen2]
    exact getD_append_head defaultLayer _ _ _
  have hmid : ∀ m, (filterHidden xs).length < m →
      m < (filterHidden xs).length + 1 + (filterHidden ms).length →
      (filterHidden (xs ++ B :: (ms ++ n :: zs))).getD m defaultLayer
        ∈ filterHidden ms := by
    intro m hm1 hm2
    rw [hdec]
    have hassoc : filterHidden xs ++ B :: (filterHidden ms ++ n :: filterHidden zs)
        = (filterHidden xs ++ [B]) ++ (filterHidden ms ++ n :: filterHidden zs) := by
      simp
    rw [hassoc]
    have hm' : m = (filterHidden xs ++ [B]).length
        + (m - (filterHidden xs).length - 1) := by
      simp [List.length_append]
      omega
    rw [hm', getD_append_len]
    have ht : m - (filterHidden xs).length - 1 < (filterHidden ms).length := by
      omega
    rw [getD_append_lt _ _ _ _ ht]
    exact getD_mem_of_lt _ _ _ ht
  refine ⟨?_, ?_, ?_, ?_, ?_, ?_⟩
  · rw [hdec]
    simp [List.length_append]
    omega
  · rw [hgdk]
    exact isNormL_true_of hn2 hn3
  · intro m hm
    rw [hdec]
    exact mem_take_append _ _ _ m hm
  · intro m hm hnorm
    by_contra hge
    rcases Nat.lt_or_ge m ((filterHidden xs).length + 1) with hlt | hgt
    · have hmj : m = (filterHidden xs).length := by omega
      rw [hmj, hgdj] at hnorm
      exact Bool.noConfusion ((isNormL_false_of_base hB).symm.trans hnorm)
    · have hx := hmid m (by omega) hm
      have hxm := List.mem_filter.mp hx
      have hnh : sigil ((filterHidden (xs ++ B :: (ms ++ n :: zs))).getD m
          defaultLayer) ≠ '.' := by
        have := hxm.2
        simpa [notHidden] using this
      rcases hms _ hxm.1 with h | h | h
      · exact hnh h
      · exact Bool.noConfusion ((isNormL_false_of_base h).symm.trans hnorm)
      · exact Bool.noConfusion ((isNormL_false_of_add h).symm.trans hnorm)
  · intro m hm
    rw [hdec]
    exact take_append_le _ _ m hm
  · intro q hq
    rw [hdec, getD_append_lt _ _ _ q hq]
    exact getD_mem_of_lt _ _ q hq

/-- C10: a Base layer `B` processed after the most recent Normal layer
does not appear in the visible set of any request emitted up to the step
of the next Normal layer `n` (in particular, requests triggered by the
Additive layers between them, if any, do not contain it); every request
emitted from the step of `n` onwards contains `B`, which enters through
the recomputation `visible_layers = base_layers + [n]`. -/
theorem c10_base_entry (c : Bool) (xs ms zs : List Layer) (B n : Layer)
    (hB : sigil B = '_')
    (hn1 : sigil n ≠ '.') (hn2 : sigil n ≠ '_') (hn3 : sigil n ≠ '+')
    (hms : ∀ l ∈ ms, sigil l = '.' ∨ sigil l = '_' ∨ sigil l = '+')
    (hBx : B ∉ xs) :
    (∀ r ∈ (composeUpTo c (filterHidden (xs ++ B :: (ms ++ n :: zs)))
        ((filterHidden xs).length + 1 + (filterHidden ms).length)).requests,
        B ∉ r.visible_layer_set)
    ∧ ∃ rest,
        (compose c (xs ++ B :: (ms ++ n :: zs))).requests
          = (composeUpTo c (filterHidden (xs ++ B :: (ms ++ n :: zs)))
              ((filterHidden xs).length + 1 + (filterHidden ms).length)).requests
            ++ rest
        ∧ ∀ r ∈ rest, B ∈ r.visible_layer_set := by
  obtain ⟨hKlen, hKn, htake, hmlt, hpre, _⟩ :=
    split_facts xs ms zs B n hB hn1 hn2 hn3 hms
  have hno : ∀ m, m < (filterHidden xs).length + 1 + (filterHidden ms).length →
      isNormL ((filterHidden (xs ++ B :: (ms ++ n :: zs))).getD m
        defaultLayer) = true →
      B ∉ (filterHidden (xs ++ B :: (ms ++ n :: zs))).take m := by
    intro m hm hnorm hmem
    have hmj := hmlt m hm hnorm
    rw [hpre m (by omega)] at hmem
    exact hBx (List.mem_of_mem_filter (List.take_subset _ _ hmem))
  constructor
  · intro r hr
    obtain ⟨rest0, hre, ht⟩ :=
      requests_growth c (filterHidden (xs ++ B :: (ms ++ n :: zs))) 0
        ((filterHidden xs).length + 1 + (filterHidden ms).length)
        (Nat.zero_le _) (le_of_lt hKlen)
    rw [show (composeUpTo c (filterHidden (xs ++ B :: (ms ++ n :: zs)))
        0).requests = [] from rfl, List.nil_append] at hre
    rw [hre] at hr
    obtain ⟨s, _, hs2, _, hs4⟩ := ht r hr
    rw [hs4]
    exact no_base_in_visible c _ B _ (le_of_lt hKlen) hB hno s hs2
  · obtain ⟨rest, hre, ht⟩ :=
      requests_growth c (filterHidden (xs ++ B :: (ms ++ n :: zs)))
        ((filterHidden xs).length + 1 + (filterHidden ms).length)
        (filterHidden (xs ++ B :: (ms ++ n :: zs))).length
        (le_of_lt hKlen) (le_refl _)
    refine ⟨rest, hre, ?_⟩
    intro r hr
    obtain ⟨s, hs1, hs2, _, hs4⟩ := ht r hr
    rw [hs4]
    exact base_in_visible c _ B _ hKlen hB hKn
      (fun m hm => htake m (by omega)) s hs1 hs2

theorem c10_base_entry_witness :
    (⟨1, "_b"⟩ : Layer) ∉ ((composeUpTo false
        (filterHidden [⟨0, "x"⟩, ⟨1, "_b"⟩, ⟨2, "+m"⟩, ⟨3, "nn"⟩]) 3).requests.getD 1
        defaultRequest).visible_layer_set := by
  have h := (c10_base_entry false [⟨0, "x"⟩] [⟨2, "+m"⟩] [] ⟨1, "_b"⟩ ⟨3, "nn"⟩
    (by decide) (by decide) (by decide) (by decide) (by decide) (by decide)).1
  exact h _ (by decide)

/-- C3, counterexample: for the list [Base b, Additive a], the (only)
request is emitted after the Base layer has been processed, yet its
visible set does not contain the Base layer. -/
theorem c3_counterexample :
    ¬ ∀ r ∈ (compose false [⟨0, "_b"⟩, ⟨1, "+a"⟩]).requests,
        (⟨0, "_b"⟩ : Layer) ∈ r.visible_layer_set := by decide

/-- C3, amended: a Base layer `B` declared before any Normal layer is in
no request emitted before the first Normal layer `n` that follows it (in
particular not in requests triggered by Additive layers between `B` and
`n`), and in every request emitted from the step of `n` onwards. -/
theorem c3_base_before_normal (c : Bool) (xs ms zs : List Layer) (B n : Layer)
    (hB : sigil B = '_')
    (hn1 : sigil n ≠ '.') (hn2 : sigil n ≠ '_') (hn3 : sigil n ≠ '+')
    (hms : ∀ l ∈ ms, sigil l = '.' ∨ sigil l = '_' ∨ sigil l = '+')
    (hxs : ∀ l ∈ xs, sigil l = '.' ∨ sigil l = '_' ∨ sigil l = '+') :
    (∀ r ∈ (composeUpTo c (filterHidden (xs ++ B :: (ms ++ n :: zs)))
        ((filterHidden xs).length + 1 + (filterHidden ms).length)).requests,
        B ∉ r.visible_layer_set)
    ∧ ∃ rest,
        (compose c (xs ++ B :: (ms ++ n :: zs))).requests
          = (composeUpTo c (filterHidden (xs ++ B :: (ms ++ n :: zs)))
              ((filterHidden xs).length + 1 + (filterHidden ms).length)).requests
            ++ rest
        ∧ ∀ r ∈ rest, B ∈ r.visible_layer_set := by
  obtain ⟨hKlen, hKn, htake, hmlt, _, hgd⟩ :=
    split_facts xs ms zs B n hB hn1 hn2 hn3 hms
  have hno : ∀ m, m < (filterHidden xs).length + 1 + (filterHidden ms).length →
      isNormL ((filterHidden (xs ++ B :: (ms ++ n :: zs))).getD m
        defaultLayer) = true →
      B ∉ (filterHidden (xs ++ B :: (ms ++ n :: zs))).take m := by
    intro m hm hnorm _
    have hmj := hmlt m hm hnorm
    have hx := hgd m hmj
    have hxm := List.mem_filter.mp hx
    have hnh : sigil ((filterHidden (xs ++ B :: (ms ++ n :: zs))).getD m
        defaultLayer) ≠ '.' := by
      have := hxm.2
      simpa [notHidden] using this
    rcases hxs _ hxm.1 with h | h | h
    · exact hnh h
    · exact Bool.noConfusion ((isNormL_false_of_base h).symm.trans hnorm)
    · exact Bool.noConfusion ((isNormL_false_of_add h).symm.trans hnorm)
  constructor
  · intro r hr
    obtain ⟨rest0, hre, ht⟩ :=
      requests_growth c (filterHidden (xs ++ B :: (ms ++ n :: zs))) 0
        ((filterHidden xs).length + 1 + (filterHidden ms).length)
        (Nat.zero_le _) (le_of_lt hKlen)
    rw [show (composeUpTo c (filterHidden (xs ++ B :: (ms ++ n :: zs)))
        0).requests = [] from rfl, List.nil_append] at hre
    rw [hre] at hr
    obtain ⟨s, _, hs2, _, hs4⟩ := ht r hr
    rw [hs4]
    exact no_base_in_visible c _ B _ (le_of_lt hKlen) hB hno s hs2
  · obtain ⟨rest, hre, ht⟩ :=
      requests_growth c (filterHidden (xs ++ B :: (ms ++ n :: zs)))
        ((filterHidden xs).length + 1 + (filterHidden ms).length)
        (filterHidden (xs ++ B :: (ms ++ n :: zs))).length
        (le_of_lt hKlen) (le_refl _)
    refine ⟨rest, hre, ?_⟩
    intro r hr
    obtain ⟨s, hs1, hs2, _, hs4⟩ := ht r hr
    rw [hs4]
    exact base_in_visible c _ B _ hKlen hB hKn
      (fun m hm => htake m (by omega)) s hs1 hs2

theorem c3_base_before_normal_witness :
    (⟨0, "_b"⟩ : Layer) ∉ ((composeUpTo false
        (filterHidden [⟨0, "_b"⟩, ⟨1, "+a"⟩, ⟨2, "nn"⟩]) 2).requests.getD 0
        defaultRequest).visible_layer_set := by
  have h := (c3_base_before_normal false [] [⟨1, "+a"⟩] [] ⟨0, "_b"⟩ ⟨2, "nn"⟩
    (by decide) (by decide) (by decide) (by decide) (by decide) (by decide)).1
  exact h _ (by decide)

/-! ### The driver: substitution and visibility round-trip -/

/-- Replaying requests: the text of every substitution target after a
non-empty run equals its captured original template with the marker
replaced by the LAST request's slide number — substitutions never
compound, because line 112 always substitutes into `subst_strings[s]`,
the stored original. -/
theorem runDriver_texts (templates : List (List Char)) :
    ∀ (rs : List RenderRequest) (d : DocState), rs ≠ [] →
      (runDriver templates d rs).texts
        = templates.map
            (fun t => substSlide t (rs.getLastD defaultRequest).slide_number) := by
  intro rs
  induction rs with
  | nil => intro d h; exact absurd rfl h
  | cons r t ih =>
    intro d h
    cases t with
    | nil => rfl
    | cons r2 t2 =>
      have hstep : runDriver templates d (r :: r2 :: t2)
          = runDriver templates (processRequest templates d r) (r2 :: t2) := rfl
      rw [hstep, ih (processRequest templates d r) (by simp)]
      rfl

/-- C6: templates are captured once (`subst_strings`, lines 56-59), and
after processing any non-empty request sequence each target's text is the
original template with `${slide}` replaced by the decimal slide number of
the last processed request; earlier substitutions leave no trace. -/
theorem c6_substitution (texts0 : List (List Char)) (d : DocState)
    (rs : List RenderRequest) (h : rs ≠ []) :
    (runDriver (subst_strings texts0) d rs).texts
      = (subst_strings texts0).map
          (fun t => substSlide t (rs.getLastD defaultRequest).slide_number) :=
  runDriver_texts (subst_strings texts0) rs d h

theorem c6_substitution_witness :
    (runDriver (subst_strings [("Slide ${slide} of 9".toList)])
        ⟨fun _ => false, []⟩
        [⟨3, 0, []⟩, ⟨5, 1, []⟩]).texts = [("Slide 5 of 9".toList)] := by
  rw [c6_substitution [("Slide ${slide} of 9".toList)] ⟨fun _ => false, []⟩
    [⟨3, 0, []⟩, ⟨5, 1, []⟩] (by decide)]
  rfl

theorem setStyle_get (b : Bool) :
    ∀ (ls : List Layer) (f : Nat → Bool) (x : Nat),
      setStyle f ls b x = if x ∈ ls.map Layer.id then b else f x := by
  intro ls
  induction ls with
  | nil => intro f x; simp [setStyle]
  | cons l t ih =>
    intro f x
    have hstep : setStyle f (l :: t) b
        = setStyle (fun y => if y = l.id then b else f y) t b := rfl
    rw [hstep, ih]
    by_cases hx : x ∈ t.map Layer.id
    · simp [hx]
    · by_cases hxl : x = l.id
      · simp [hx, hxl]
      · simp [hx, hxl]

/-- Showing and re-hiding a request's layers leaves a hidden layer
hidden. -/
theorem processRequest_visible_false (templates : List (List Char))
    (d : DocState) (r : RenderRequest) (x : Nat)
    (h : d.visible x = false) :
    (processRequest templates d r).visible x = false := by
  show setStyle (setStyle d.visible r.visible_layer_set true)
      r.visible_layer_set false x = false
  rw [setStyle_get, setStyle_get]
  by_cases hx : x ∈ r.visible_layer_set.map Layer.id <;> simp [hx, h]

theorem runDriver_visible_false (templates : List (List Char)) :
    ∀ (rs : List RenderRequest) (d : DocState) (x : Nat),
      d.visible x = false → (runDriver templates d rs).visible x = false := by
  intro rs
  induction rs with
  | nil => intro d x h; exact h
  | cons r t ih =>
    intro d x h
    exact ih (processRequest templates d r) x
      (processRequest_visible_false templates d r x h)

/-- C7: whatever the flattening mode and the initial styles, after the
main pass every layer of the document (hidden or not) is invisible
again: the initial hide (lines 61-73) establishes the all-hidden
baseline and every emitted request restores it (lines 124-126). -/
theorem c7_round_trip (c : Bool) (raw : List Layer)
    (templates : List (List Char)) (d : DocState) :
    ∀ l ∈ raw, (mainPass c raw templates d).visible l.id = false := by
  intro l hl
  apply runDriver_visible_false
  show setStyle (setStyle d.visible raw false) (filterHidden raw) false l.id
      = false
  rw [setStyle_get, setStyle_get]
  have hmem : l.id ∈ raw.map Layer.id := List.mem_map.mpr ⟨l, hl, rfl⟩
  by_cases h2 : l.id ∈ (filterHidden raw).map Layer.id <;> simp [h2, hmem]

theorem c7_round_trip_witness :
    (mainPass false [⟨0, "a"⟩, ⟨1, ".h"⟩] [] ⟨fun _ => true, []⟩).visible 0
      = false :=
  c7_round_trip false [⟨0, "a"⟩, ⟨1, ".h"⟩] [] ⟨fun _ => true, []⟩
    ⟨0, "a"⟩ (by decide)

/-! ### Missing labels and the output path -/

theorem loadLayers_error :
    ∀ raw : List RawLayer, (∃ l ∈ raw, l.label? = none) →
      loadLayers raw = .error .MalformedDocument := by
  intro raw
  induction raw with
  | nil => rintro ⟨l, hl, _⟩; simp at hl
  | cons a t ih =>
    rintro ⟨l, hl, hnone⟩
    rcases List.mem_cons.mp hl with rfl | hl
    · simp [loadLayers, hnone]
    · cases ha : a.label? with
      | none => simp [loadLayers, ha]
      | some s => simp [loadLayers, ha, ih ⟨l, hl, hnone⟩]

/-- C8: a layer group without the required label attribute makes the run
fail with `MalformedDocument` while reading the labels, before the
composer produces any render request (and hence before any page is
rendered). -/
theorem c8_missing_label (c : Bool) (raw : List RawLayer)
    (h : ∃ l ∈ raw, l.label? = none) :
    runPipeline c raw = .error .MalformedDocument := by
  unfold runPipeline
  rw [loadLayers_error raw h]
  rfl

theorem c8_missing_label_witness :
    runPipeline false [⟨0, none⟩] = .error .MalformedDocument :=
  c8_missing_label false [⟨0, none⟩]
    ⟨⟨0, none⟩, List.mem_singleton_self _, rfl⟩

/-- C9, counterexample: the output path chops the last four characters
whatever the extension is, so a source file with a two-character
extension does not keep its stem. -/
theorem c9_counterexample :
    out_path ("talk.md".toList) ≠ ("talk.pdf".toList)
    ∧ out_path ("talk.md".toList) = ("tal.pdf".toList) :=
  ⟨by decide, by decide⟩

/-- C9, amended: the output path is the source path with its last four
characters removed and `.pdf` appended; the stem is preserved exactly
when the source extension has three characters (as with `.svg`). -/
theorem c9_amended (stem ext : List Char) (h : ext.length = 3) :
    out_path (stem ++ '.' :: ext) = stem ++ ['.', 'p', 'd', 'f'] := by
  unfold out_path
  have hlen : (stem ++ '.' :: ext).length - 4 = stem.length := by
    simp [List.length_append, h]
  rw [hlen, take_append_self]

theorem c9_amended_witness :
    out_path (("talk".toList) ++ '.' :: ("svg".toList))
      = ("talk".toList) ++ ['.', 'p', 'd', 'f'] :=
  c9_amended ("talk".toList) ("svg".toList) (by decide)
